import Mathlib

/-!
Shallow embedding of the core of the `ml-complexity-research-suite`
repository: the sumset algorithms
(`src/projects/real_ram_deficit/algorithms/sumset.py`), the exact real
arithmetic model (`src/projects/real_ram_deficit/models/real_ram.py`),
the word-RAM integer model
(`src/projects/real_ram_deficit/models/word_ram.py`) and the geometric
hill-climbing search
(`src/projects/real_ram_deficit/algorithms/geometric.py`),
together with proofs of the spec's testable properties.
-/

namespace MLSuite

/-- Python `min` over a list of integers; the source only calls it on
nonempty lists (guarded by `if not a or not b`), the `[]` case is an
arbitrary default. -/
def listMin : List ℤ → ℤ
  | [] => 0
  | x :: xs => xs.foldl min x

/-- Python `max` over a list of integers; same convention as `listMin`. -/
def listMax : List ℤ → ℤ
  | [] => 0
  | x :: xs => xs.foldl max x

/-- Python `max` over a list of naturals (used on the shifted, nonnegative
lists in `fft_sumset`); on a nonempty list of naturals folding from 0
agrees with Python `max`. -/
def listMaxN (l : List ℕ) : ℕ := l.foldl max 0

/-- `SumsetResult` dataclass from `sumset.py`: the resulting set (Python
`set` of ints becomes `Finset ℤ`), its cardinality, the algorithm tag and
the elementary-operation count. -/
structure SumsetResult where
  sumset : Finset ℤ
  size : ℕ
  algorithm : String
  operations : ℕ
  deriving DecidableEq

/-- Inner loop of `naive_sumset`: for a fixed `x`, run over `b` inserting
`x + y` into the accumulated set and bumping the operation counter. -/
def naiveInner (x : ℤ) (st : Finset ℤ × ℕ) (b : List ℤ) : Finset ℤ × ℕ :=
  b.foldl (fun st2 y => (insert (x + y) st2.1, st2.2 + 1)) st

/-- `naive_sumset` from `sumset.py`: double loop over `a × b`, inserting
every pairwise sum into a set, one counted operation per pair. -/
def naive_sumset (a b : List ℤ) : SumsetResult :=
  let r := a.foldl (fun st x => naiveInner x st b) (∅, 0)
  ⟨r.1, r.1.card, "naive", r.2⟩

/-- Inner loop of `bucket_sumset`: the boolean presence table
`hit` (a Python list of booleans indexed `0 .. max_sum - min_sum`) is
modelled as a function `ℕ → Bool`; every write in the source is at index
`(x + y) - min_sum`, which is nonnegative and in range for the pairs the
loop visits. -/
def bucketInner (x : ℤ) (minSum : ℤ) (st : (ℕ → Bool) × ℕ) (b : List ℤ) :
    (ℕ → Bool) × ℕ :=
  b.foldl
    (fun st2 y =>
      (fun i => if i = (x + y - minSum).toNat then true else st2.1 i,
       st2.2 + 1))
    st

/-- `bucket_sumset` from `sumset.py`: guard on empty inputs, mark the
presence table over the attainable range, one counted operation per pair,
then collect `{i + min_sum | hit[i]}` by a sweep over the table indices. -/
def bucket_sumset (a b : List ℤ) : SumsetResult :=
  if a = [] ∨ b = [] then ⟨∅, 0, "bucket", 0⟩
  else
    let minSum := listMin a + listMin b
    let maxSum := listMax a + listMax b
    let r := a.foldl (fun st x => bucketInner x minSum st b)
      ((fun _ => false), 0)
    let result := ((Finset.range (maxSum - minSum + 1).toNat).filter
      (fun i => r.1 i = true)).image (fun (i : ℕ) => (i : ℤ) + minSum)
    ⟨result, result.card, "bucket", r.2⟩

/-- The `while fft_size < size: fft_size *= 2` loop of `fft_sumset`,
written with explicit fuel (the loop starts at 1 and doubles, so `size`
iterations are always enough). -/
def fftGrow : ℕ → ℕ → ℕ → ℕ
  | 0, _, acc => acc
  | fuel + 1, size, acc => if acc < size then fftGrow fuel size (2 * acc) else acc

/-- Value of `fft_size` after the doubling loop (before the final `*= 2`). -/
def fftPow (size : ℕ) : ℕ := fftGrow size size 1

/-- The shifted copy of a list used by `fft_sumset`
(`[x - min(a) for x in a]`); entries are nonnegative, so they live in ℕ. -/
def shiftList (a : List ℤ) : List ℕ := a.map (fun x => (x - listMin a).toNat)

/-- Minimum support size `size = max(a_shifted) + max(b_shifted) + 1`
computed by `fft_sumset`. -/
def fftSupport (a b : List ℤ) : ℕ :=
  listMaxN (shiftList a) + listMaxN (shiftList b) + 1

/-- Transform length `fft_size` of `fft_sumset`: the doubling loop result
times the final `fft_size *= 2`. -/
def fftSize (a b : List ℤ) : ℕ := 2 * fftPow (fftSupport a b)

/-- Indicator vector (`poly_a` after the `poly_a[x] = 1` loop): 1 at the
indices present in the shifted list, 0 elsewhere.  The numpy vector holds
floats; with exact arithmetic its entries are these 0/1 naturals. -/
def indicator (l : List ℕ) (i : ℕ) : ℕ := if i ∈ l then 1 else 0

/-- Coefficient `k` of
`np.fft.ifft(np.fft.fft(poly_a) * np.fft.fft(poly_b)).real`: pointwise
multiplication in the frequency domain computes the cyclic convolution of
the two indicator vectors.  The transform itself is floating-point; this
is its exact value, which is what the 0.5 threshold is designed to
recover. -/
def cyclicConv (pa pb : ℕ → ℕ) (n k : ℕ) : ℕ :=
  ∑ i ∈ Finset.range n, pa i * pb ((k + n - i) % n)

/-- `fft_sumset` from `sumset.py`: guard on empty inputs, shift both lists
to nonnegative support, pad to `fftSize`, convolve the indicator vectors,
keep the indices whose coefficient exceeds 0.5 (for exact 0/1 indicator
convolution, the naturals `≥ 1`), shift back by `min(a) + min(b)`, and
report `3 * N * int(log2 N)` operations. -/
def fft_sumset (a b : List ℤ) : SumsetResult :=
  if a = [] ∨ b = [] then ⟨∅, 0, "fft", 0⟩
  else
    let n := fftSize a b
    let pa := indicator (shiftList a)
    let pb := indicator (shiftList b)
    let result := ((Finset.range n).filter
      (fun k => 1 ≤ cyclicConv pa pb n k)).image
      (fun (k : ℕ) => (k : ℤ) + listMin a + listMin b)
    ⟨result, result.card, "fft", 3 * n * Nat.log2 n⟩

/-- The mathematical sumset `{x + y | x ∈ a, y ∈ b}` as a finite set;
reference point for all three algorithms. -/
def sumsetSpec (a b : List ℤ) : Finset ℤ :=
  Finset.image₂ (fun x y => x + y) a.toFinset b.toFinset

/-! ### List min/max lemmas -/

lemma foldl_min_le_init {α : Type} [LinearOrder α] (xs : List α) (acc : α) :
    xs.foldl min acc ≤ acc := by
  induction xs generalizing acc with
  | nil => simp
  | cons y ys ih =>
      simp only [List.foldl_cons]
      exact le_trans (ih (min acc y)) (min_le_left _ _)

lemma foldl_min_le_mem {α : Type} [LinearOrder α] {x : α} (xs : List α)
    (acc : α) (hx : x ∈ xs) : xs.foldl min acc ≤ x := by
  induction xs generalizing acc with
  | nil => cases hx
  | cons y ys ih =>
      simp only [List.foldl_cons]
      rcases List.mem_cons.mp hx with h | h
      · subst h
        exact le_trans (foldl_min_le_init ys (min acc x)) (min_le_right _ _)
      · exact ih (min acc y) h

lemma le_foldl_max_init {α : Type} [LinearOrder α] (xs : List α) (acc : α) :
    acc ≤ xs.foldl max acc := by
  induction xs generalizing acc with
  | nil => simp
  | cons y ys ih =>
      simp only [List.foldl_cons]
      exact le_trans (le_max_left _ _) (ih (max acc y))

lemma le_foldl_max_mem {α : Type} [LinearOrder α] {x : α} (xs : List α)
    (acc : α) (hx : x ∈ xs) : x ≤ xs.foldl max acc := by
  induction xs generalizing acc with
  | nil => cases hx
  | cons y ys ih =>
      simp only [List.foldl_cons]
      rcases List.mem_cons.mp hx with h | h
      · subst h
        exact le_trans (le_max_right _ _) (le_foldl_max_init ys (max acc x))
      · exact ih (max acc y) h

lemma listMin_le {x : ℤ} {l : List ℤ} (hx : x ∈ l) : listMin l ≤ x := by
  cases l with
  | nil => cases hx
  | cons y ys =>
      rcases List.mem_cons.mp hx with h | h
      · subst h; exact foldl_min_le_init ys x
      · exact foldl_min_le_mem ys y h

lemma le_listMax {x : ℤ} {l : List ℤ} (hx : x ∈ l) : x ≤ listMax l := by
  cases l with
  | nil => cases hx
  | cons y ys =>
      rcases List.mem_cons.mp hx with h | h
      · subst h; exact le_foldl_max_init ys x
      · exact le_foldl_max_mem ys y h

lemma le_listMaxN {x : ℕ} {l : List ℕ} (hx : x ∈ l) : x ≤ listMaxN l :=
  le_foldl_max_mem l 0 hx

/-! ### `naive_sumset` characterization -/

lemma naiveInner_fst (x : ℤ) (st : Finset ℤ × ℕ) (b : List ℤ) {z : ℤ} :
    z ∈ (naiveInner x st b).1 ↔ z ∈ st.1 ∨ ∃ y ∈ b, z = x + y := by
  induction b generalizing st with
  | nil => simp [naiveInner]
  | cons y ys ih =>
      simp only [naiveInner, List.foldl_cons] at *
      rw [ih]
      simp only [Finset.mem_insert, List.mem_cons]
      constructor
      · rintro ((h | h) | ⟨y2, hy2, rfl⟩)
        · exact Or.inr ⟨y, Or.inl rfl, h⟩
        · exact Or.inl h
        · exact Or.inr ⟨y2, Or.inr hy2, rfl⟩
      · rintro (h | ⟨y2, (rfl | hy2), rfl⟩)
        · exact Or.inl (Or.inr h)
        · exact Or.inl (Or.inl rfl)
        · exact Or.inr ⟨y2, hy2, rfl⟩

lemma naiveInner_snd (x : ℤ) (st : Finset ℤ × ℕ) (b : List ℤ) :
    (naiveInner x st b).2 = st.2 + b.length := by
  induction b generalizing st with
  | nil => simp [naiveInner]
  | cons y ys ih =>
      simp only [naiveInner, List.foldl_cons] at *
      rw [ih]
      simp
      omega

lemma naiveFold_fst (a b : List ℤ) (st : Finset ℤ × ℕ) {z : ℤ} :
    z ∈ (a.foldl (fun st2 x => naiveInner x st2 b) st).1 ↔
      z ∈ st.1 ∨ ∃ x ∈ a, ∃ y ∈ b, z = x + y := by
  induction a generalizing st with
  | nil => simp
  | cons x xs ih =>
      simp only [List.foldl_cons]
      rw [ih, naiveInner_fst]
      simp only [List.mem_cons]
      constructor
      · rintro ((h | ⟨y, hy, rfl⟩) | ⟨x2, hx2, y, hy, rfl⟩)
        · exact Or.inl h
        · exact Or.inr ⟨x, Or.inl rfl, y, hy, rfl⟩
        · exact Or.inr ⟨x2, Or.inr hx2, y, hy, rfl⟩
      · rintro (h | ⟨x2, (rfl | hx2), y, hy, rfl⟩)
        · exact Or.inl (Or.inl h)
        · exact Or.inl (Or.inr ⟨y, hy, rfl⟩)
        · exact Or.inr ⟨x2, hx2, y, hy, rfl⟩

lemma naiveFold_snd (a b : List ℤ) (st : Finset ℤ × ℕ) :
    (a.foldl (fun st2 x => naiveInner x st2 b) st).2 =
      st.2 + a.length * b.length := by
  induction a generalizing st with
  | nil => simp
  | cons x xs ih =>
      simp only [List.foldl_cons]
      rw [ih, naiveInner_snd]
      simp [List.length_cons]
      ring

/-- The naive algorithm computes exactly the mathematical sumset. -/
lemma naive_sumset_set (a b : List ℤ) :
    (naive_sumset a b).sumset = sumsetSpec a b := by
  ext z
  simp only [naive_sumset]
  rw [naiveFold_fst]
  simp only [Finset.not_mem_empty, false_or, sumsetSpec, Finset.mem_image₂,
    List.mem_toFinset]
  constructor
  · rintro ⟨x, hx, y, hy, rfl⟩; exact ⟨x, hx, y, hy, rfl⟩
  · rintro ⟨x, hx, y, hy, rfl⟩; exact ⟨x, hx, y, hy, rfl⟩

lemma naive_sumset_ops (a b : List ℤ) :
    (naive_sumset a b).operations = a.length * b.length := by
  simp only [naive_sumset]
  rw [naiveFold_snd]
  simp

/-! ### `bucket_sumset` characterization -/

lemma bucketInner_fst (x : ℤ) (m : ℤ) (st : (ℕ → Bool) × ℕ) (b : List ℤ)
    (i : ℕ) :
    (bucketInner x m st b).1 i = true ↔
      st.1 i = true ∨ ∃ y ∈ b, i = (x + y - m).toNat := by
  induction b generalizing st with
  | nil => simp [bucketInner]
  | cons y ys ih =>
      simp only [bucketInner, List.foldl_cons] at *
      rw [ih]
      simp only [List.mem_cons]
      constructor
      · rintro (h | ⟨y2, hy2, rfl⟩)
        · by_cases hi : i = (x + y - m).toNat
          · exact Or.inr ⟨y, Or.inl rfl, hi⟩
          · rw [if_neg hi] at h
            exact Or.inl h
        · exact Or.inr ⟨y2, Or.inr hy2, rfl⟩
      · rintro (h | ⟨y2, (rfl | hy2), rfl⟩)
        · by_cases hi : i = (x + y - m).toNat
          · exact Or.inl (by rw [if_pos hi])
          · exact Or.inl (by rw [if_neg hi]; exact h)
        · exact Or.inl (by rw [if_pos rfl])
        · exact Or.inr ⟨y2, hy2, rfl⟩

lemma bucketInner_snd (x : ℤ) (m : ℤ) (st : (ℕ → Bool) × ℕ) (b : List ℤ) :
    (bucketInner x m st b).2 = st.2 + b.length := by
  induction b generalizing st with
  | nil => simp [bucketInner]
  | cons y ys ih =>
      simp only [bucketInner, List.foldl_cons] at *
      rw [ih]
      simp
      omega

lemma bucketFold_fst (a b : List ℤ) (m : ℤ) (st : (ℕ → Bool) × ℕ) (i : ℕ) :
    ((a.foldl (fun st2 x => bucketInner x m st2 b) st).1 i = true) ↔
      st.1 i = true ∨ ∃ x ∈ a, ∃ y ∈ b, i = (x + y - m).toNat := by
  induction a generalizing st with
  | nil => simp
  | cons x xs ih =>
      simp only [List.foldl_cons]
      rw [ih, bucketInner_fst]
      simp only [List.mem_cons]
      constructor
      · rintro ((h | ⟨y, hy, rfl⟩) | ⟨x2, hx2, y, hy, rfl⟩)
        · exact Or.inl h
        · exact Or.inr ⟨x, Or.inl rfl, y, hy, rfl⟩
        · exact Or.inr ⟨x2, Or.inr hx2, y, hy, rfl⟩
      · rintro (h | ⟨x2, (rfl | hx2), y, hy, rfl⟩)
        · exact Or.inl (Or.inl h)
        · exact Or.inl (Or.inr ⟨y, hy, rfl⟩)
        · exact Or.inr ⟨x2, hx2, y, hy, rfl⟩

lemma bucketFold_snd (a b : List ℤ) (m : ℤ) (st : (ℕ → Bool) × ℕ) :
    (a.foldl (fun st2 x => bucketInner x m st2 b) st).2 =
      st.2 + a.length * b.length := by
  induction a generalizing st with
  | nil => simp
  | cons x xs ih =>
      simp only [List.foldl_cons]
      rw [ih, bucketInner_snd]
      simp [List.length_cons]
      ring

/-- The bucket algorithm computes exactly the mathematical sumset. -/
lemma bucket_sumset_set (a b : List ℤ) :
    (bucket_sumset a b).sumset = sumsetSpec a b := by
  by_cases hab : a = [] ∨ b = []
  · rw [bucket_sumset, if_pos hab]
    rcases hab with h | h <;> subst h <;> simp [sumsetSpec]
  · push_neg at hab
    obtain ⟨ha, hb⟩ := hab
    obtain ⟨x0, hx0⟩ := List.exists_mem_of_ne_nil a ha
    obtain ⟨y0, hy0⟩ := List.exists_mem_of_ne_nil b hb
    rw [bucket_sumset, if_neg (by simp [ha, hb])]
    ext z
    simp only [Finset.mem_image, Finset.mem_filter, Finset.mem_range]
    constructor
    · rintro ⟨i, ⟨hir, hhit⟩, rfl⟩
      rw [bucketFold_fst] at hhit
      simp only [Bool.false_eq_true, false_or] at hhit
      obtain ⟨x, hx, y, hy, rfl⟩ := hhit
      have hxy : listMin a + listMin b ≤ x + y :=
        add_le_add (listMin_le hx) (listMin_le hy)
      have : ((x + y - (listMin a + listMin b)).toNat : ℤ) =
          x + y - (listMin a + listMin b) := Int.toNat_of_nonneg (by omega)
      rw [this]
      have : x + y - (listMin a + listMin b) + (listMin a + listMin b) =
          x + y := by ring
      rw [this]
      exact Finset.mem_image₂_of_mem (List.mem_toFinset.mpr hx)
        (List.mem_toFinset.mpr hy)
    · intro hz
      simp only [sumsetSpec, Finset.mem_image₂, List.mem_toFinset] at hz
      obtain ⟨x, hx, y, hy, rfl⟩ := hz
      refine ⟨(x + y - (listMin a + listMin b)).toNat, ⟨?_, ?_⟩, ?_⟩
      · have h1 : x + y ≤ listMax a + listMax b :=
          add_le_add (le_listMax hx) (le_listMax hy)
        have h2 : listMin a + listMin b ≤ x + y :=
          add_le_add (listMin_le hx) (listMin_le hy)
        omega
      · rw [bucketFold_fst]
        exact Or.inr ⟨x, hx, y, hy, rfl⟩
      · have h2 : listMin a + listMin b ≤ x + y :=
          add_le_add (listMin_le hx) (listMin_le hy)
        omega

lemma bucket_sumset_ops (a b : List ℤ) (ha : a ≠ []) (hb : b ≠ []) :
    (bucket_sumset a b).operations = a.length * b.length := by
  rw [bucket_sumset, if_neg (by simp [ha, hb])]
  simp only
  rw [bucketFold_snd]
  simp

/-! ### `fft_sumset`: padding loop lemmas -/

lemma fftGrow_ge (fuel size acc : ℕ) (hacc : 1 ≤ acc)
    (hfuel : size ≤ fuel + acc) : size ≤ fftGrow fuel size acc := by
  induction fuel generalizing acc with
  | zero =>
      simp only [fftGrow]
      omega
  | succ n ih =>
      simp only [fftGrow]
      by_cases h : acc < size
      · rw [if_pos h]
        exact ih (2 * acc) (by omega) (by omega)
      · rw [if_neg h]
        omega

lemma fftGrow_pow2 (fuel size k : ℕ) : ∃ m, fftGrow fuel size (2 ^ k) = 2 ^ m := by
  induction fuel generalizing k with
  | zero => exact ⟨k, rfl⟩
  | succ n ih =>
      simp only [fftGrow]
      by_cases h : 2 ^ k < size
      · rw [if_pos h]
        have : 2 * 2 ^ k = 2 ^ (k + 1) := by ring
        rw [this]
        exact ih (k + 1)
      · rw [if_neg h]
        exact ⟨k, rfl⟩

lemma fftPow_ge (size : ℕ) : size ≤ fftPow size :=
  fftGrow_ge size size 1 le_rfl (by omega)

lemma fftPow_pow2 (size : ℕ) : ∃ m, fftPow size = 2 ^ m := by
  have := fftGrow_pow2 size size 0
  simpa [fftPow] using this

lemma fftPow_pos (size : ℕ) : 1 ≤ fftPow size := by
  obtain ⟨m, hm⟩ := fftPow_pow2 size
  rw [hm]
  exact Nat.one_le_two_pow

/-! ### `fft_sumset`: convolution characterization -/

lemma shiftList_bound {a : List ℤ} {i : ℕ} (hi : i ∈ shiftList a) :
    i ≤ listMaxN (shiftList a) := le_listMaxN hi

/-- With both indicator supports below half the (even) transform length,
a cyclic-convolution coefficient is positive exactly when some pair of
support indices sums to it: the padding rules out circular wraparound. -/
lemma cyclicConv_pos_iff (la lb : List ℕ) (s1 s2 mhalf k : ℕ)
    (hs1 : ∀ i ∈ la, i ≤ s1) (hs2 : ∀ j ∈ lb, j ≤ s2)
    (hm : s1 + s2 + 1 ≤ mhalf) (hk : k < 2 * mhalf) :
    1 ≤ cyclicConv (indicator la) (indicator lb) (2 * mhalf) k ↔
      ∃ i ∈ la, ∃ j ∈ lb, i + j = k := by
  constructor
  · intro hpos
    by_contra hno
    push_neg at hno
    have hzero : cyclicConv (indicator la) (indicator lb) (2 * mhalf) k = 0 := by
      apply Finset.sum_eq_zero
      intro i hi
      rw [Finset.mem_range] at hi
      by_cases hia : i ∈ la
      · have his1 : i ≤ s1 := hs1 i hia
        rcases le_or_lt i k with hik | hik
        · have hidx : (k + 2 * mhalf - i) % (2 * mhalf) = k - i := by
            have : k + 2 * mhalf - i = 2 * mhalf + (k - i) := by omega
            rw [this, Nat.add_mod_left, Nat.mod_eq_of_lt (by omega)]
          rw [hidx]
          by_cases hjb : k - i ∈ lb
          · exfalso
            have := hno i hia (k - i) hjb
            omega
          · simp [indicator, hjb]
        · have hidx : (k + 2 * mhalf - i) % (2 * mhalf) = k + 2 * mhalf - i := by
            exact Nat.mod_eq_of_lt (by omega)
          rw [hidx]
          by_cases hjb : k + 2 * mhalf - i ∈ lb
          · have := hs2 _ hjb
            omega
          · simp [indicator, hjb]
      · simp [indicator, hia]
    omega
  · rintro ⟨i, hia, j, hjb, rfl⟩
    have his1 : i ≤ s1 := hs1 i hia
    have hjs2 : j ≤ s2 := hs2 j hjb
    have hterm : indicator la i *
        indicator lb ((i + j + 2 * mhalf - i) % (2 * mhalf)) = 1 := by
      have hidx : (i + j + 2 * mhalf - i) % (2 * mhalf) = j := by
        have : i + j + 2 * mhalf - i = 2 * mhalf + j := by omega
        rw [this, Nat.add_mod_left, Nat.mod_eq_of_lt (by omega)]
      rw [hidx]
      simp [indicator, hia, hjb]
    calc 1 = indicator la i *
          indicator lb ((i + j + 2 * mhalf - i) % (2 * mhalf)) := hterm.symm
      _ ≤ cyclicConv (indicator la) (indicator lb) (2 * mhalf) (i + j) := by
          apply Finset.single_le_sum (f := fun i2 => indicator la i2 *
            indicator lb ((i + j + 2 * mhalf - i2) % (2 * mhalf)))
          · intro n _
            exact Nat.zero_le _
          · rw [Finset.mem_range]
            omega

lemma mem_shiftList {a : List ℤ} {i : ℕ} :
    i ∈ shiftList a ↔ ∃ x ∈ a, i = (x - listMin a).toNat := by
  simp only [shiftList, List.mem_map]
  constructor
  · rintro ⟨x, hx, rfl⟩; exact ⟨x, hx, rfl⟩
  · rintro ⟨x, hx, rfl⟩; exact ⟨x, hx, rfl⟩

/-- The fft algorithm (with the transform evaluated exactly) computes
exactly the mathematical sumset. -/
lemma fft_sumset_set (a b : List ℤ) :
    (fft_sumset a b).sumset = sumsetSpec a b := by
  by_cases hab : a = [] ∨ b = []
  · rw [fft_sumset, if_pos hab]
    rcases hab with h | h <;> subst h <;> simp [sumsetSpec]
  · push_neg at hab
    obtain ⟨ha, hb⟩ := hab
    rw [fft_sumset, if_neg (by simp [ha, hb])]
    have hkey := fun k hk => cyclicConv_pos_iff (shiftList a) (shiftList b)
      (listMaxN (shiftList a)) (listMaxN (shiftList b))
      (fftPow (fftSupport a b)) k
      (fun i hi => shiftList_bound hi) (fun j hj => shiftList_bound hj)
      (fftPow_ge _) hk
    ext z
    simp only [Finset.mem_image, Finset.mem_filter, Finset.mem_range,
      fftSize]
    constructor
    · rintro ⟨k, ⟨hkr, hpos⟩, rfl⟩
      rw [hkey k hkr] at hpos
      obtain ⟨i, hia, j, hjb, rfl⟩ := hpos
      rw [mem_shiftList] at hia hjb
      obtain ⟨x, hx, rfl⟩ := hia
      obtain ⟨y, hy, rfl⟩ := hjb
      have hxa : listMin a ≤ x := listMin_le hx
      have hyb : listMin b ≤ y := listMin_le hy
      have hz : (((x - listMin a).toNat + (y - listMin b).toNat : ℕ) : ℤ) +
          listMin a + listMin b = x + y := by
        push_cast
        omega
      rw [hz]
      exact Finset.mem_image₂_of_mem (List.mem_toFinset.mpr hx)
        (List.mem_toFinset.mpr hy)
    · intro hz
      simp only [sumsetSpec, Finset.mem_image₂, List.mem_toFinset] at hz
      obtain ⟨x, hx, y, hy, rfl⟩ := hz
      have hxa : listMin a ≤ x := listMin_le hx
      have hyb : listMin b ≤ y := listMin_le hy
      set i := (x - listMin a).toNat with hidef
      set j := (y - listMin b).toNat with hjdef
      have hia : i ∈ shiftList a := mem_shiftList.mpr ⟨x, hx, rfl⟩
      have hjb : j ∈ shiftList b := mem_shiftList.mpr ⟨y, hy, rfl⟩
      have hibound : i ≤ listMaxN (shiftList a) := shiftList_bound hia
      have hjbound : j ≤ listMaxN (shiftList b) := shiftList_bound hjb
      have hksmall : i + j < 2 * fftPow (fftSupport a b) := by
        have hsup := fftPow_ge (fftSupport a b)
        have h1 : fftSupport a b =
            listMaxN (shiftList a) + listMaxN (shiftList b) + 1 := rfl
        omega
      refine ⟨i + j, ⟨hksmall, ?_⟩, ?_⟩
      · rw [hkey (i + j) hksmall]
        exact ⟨i, hia, j, hjb, rfl⟩
      · push_cast
        omega

lemma fft_sumset_ops (a b : List ℤ) (ha : a ≠ []) (hb : b ≠ []) :
    (fft_sumset a b).operations =
      3 * fftSize a b * Nat.log2 (fftSize a b) := by
  rw [fft_sumset, if_neg (by simp [ha, hb])]

/-! ### Size and bound lemmas -/

lemma naive_sumset_size (a b : List ℤ) :
    (naive_sumset a b).size = (naive_sumset a b).sumset.card := rfl

lemma bucket_sumset_size (a b : List ℤ) :
    (bucket_sumset a b).size = (bucket_sumset a b).sumset.card := by
  rw [bucket_sumset]
  split <;> rfl

lemma fft_sumset_size (a b : List ℤ) :
    (fft_sumset a b).size = (fft_sumset a b).sumset.card := by
  rw [fft_sumset]
  split <;> rfl

lemma sumsetSpec_card_le (a b : List ℤ) :
    (sumsetSpec a b).card ≤ a.length * b.length :=
  le_trans (Finset.card_image₂_le _ _ _)
    (Nat.mul_le_mul a.toFinset_card_le b.toFinset_card_le)

lemma toFinset_card_le_sumsetSpec_left (a b : List ℤ) (hb : b ≠ []) :
    a.toFinset.card ≤ (sumsetSpec a b).card := by
  obtain ⟨y0, hy0⟩ := List.exists_mem_of_ne_nil b hb
  apply Finset.card_le_card_of_injOn (fun x => x + y0)
  · intro x hx
    exact Finset.mem_image₂_of_mem hx (List.mem_toFinset.mpr hy0)
  · intro x1 _ x2 _ h
    simpa using h

lemma toFinset_card_le_sumsetSpec_right (a b : List ℤ) (ha : a ≠ []) :
    b.toFinset.card ≤ (sumsetSpec a b).card := by
  obtain ⟨x0, hx0⟩ := List.exists_mem_of_ne_nil a ha
  apply Finset.card_le_card_of_injOn (fun y => x0 + y)
  · intro y hy
    exact Finset.mem_image₂_of_mem (List.mem_toFinset.mpr hx0) hy
  · intro y1 _ y2 _ h
    simpa using h

lemma foldl_max_choice {α : Type} [LinearOrder α] (xs : List α) (acc : α) :
    xs.foldl max acc = acc ∨ xs.foldl max acc ∈ xs := by
  induction xs generalizing acc with
  | nil => exact Or.inl rfl
  | cons y ys ih =>
      simp only [List.foldl_cons]
      rcases ih (max acc y) with h | h
      · rw [h]
        rcases max_choice acc y with h2 | h2
        · exact Or.inl h2
        · rw [h2]
          exact Or.inr (List.mem_cons_self y ys)
      · exact Or.inr (List.mem_cons_of_mem y h)

lemma listMax_mem {l : List ℤ} (hl : l ≠ []) : listMax l ∈ l := by
  cases l with
  | nil => exact absurd rfl hl
  | cons y ys =>
      rcases foldl_max_choice ys y with h | h
      · rw [listMax, h]
        exact List.mem_cons_self _ _
      · exact List.mem_cons_of_mem y (by rw [listMax]; exact h)

/-- For nonempty `a`, the maximum of the shifted list is
`max(a) - min(a)` (as computed by `fft_sumset` over the shifted copies). -/
lemma listMaxN_shiftList (a : List ℤ) (ha : a ≠ []) :
    (listMaxN (shiftList a) : ℤ) = listMax a - listMin a := by
  have hmem : (listMax a - listMin a).toNat ∈ shiftList a :=
    mem_shiftList.mpr ⟨listMax a, listMax_mem ha, rfl⟩
  have hub : ∀ i ∈ shiftList a, i ≤ (listMax a - listMin a).toNat := by
    intro i hi
    obtain ⟨x, hx, rfl⟩ := mem_shiftList.mp hi
    have h1 := listMin_le hx
    have h2 := le_listMax hx
    omega
  have h1 : listMaxN (shiftList a) ≤ (listMax a - listMin a).toNat := by
    rcases foldl_max_choice (shiftList a) 0 with h | h
    · rw [listMaxN, h]
      exact Nat.zero_le _
    · exact hub _ h
  have h2 : (listMax a - listMin a).toNat ≤ listMaxN (shiftList a) :=
    le_listMaxN hmem
  have h3 : listMin a ≤ listMax a := by
    obtain ⟨x, hx⟩ := List.exists_mem_of_ne_nil a ha
    exact le_trans (listMin_le hx) (le_listMax hx)
  omega

/-! ### Claim theorems: sumset algorithms -/

/-- C1: for all finite integer sequences `A` and `B`, the three sumset
algorithms (`naive_sumset`, `bucket_sumset`, `fft_sumset`, the latter with
its transform evaluated exactly) return the same resulting set of
integers; in particular `naive_sumset` and `bucket_sumset` produce exactly
equal `sumset` fields. -/
theorem C1_sumset_algorithms_agree (a b : List ℤ) :
    (naive_sumset a b).sumset = (bucket_sumset a b).sumset ∧
      (naive_sumset a b).sumset = (fft_sumset a b).sumset := by
  rw [naive_sumset_set, bucket_sumset_set, fft_sumset_set]
  exact ⟨rfl, rfl⟩

/-- C4 counterexample: with the duplicate-containing input `A = [1, 1]`,
`B = [2]`, the sumset is `{3}` of size 1, strictly below
`max(|A|, |B|) = 2` when `|A|`, `|B|` are the sequence lengths, so the
claimed lower bound fails as stated. -/
theorem C4_cex_length_lower_bound_fails :
    (naive_sumset [1, 1] [2]).size <
      max (List.length [(1 : ℤ), 1]) (List.length [(2 : ℤ)]) := by decide

/-- C4 (amended): for nonempty `A`, `B`, every algorithm's result size is
at most `|A| · |B|` (sequence lengths) and at least
`max(|A|, |B|)` counting distinct values (duplicates collapse in the
resulting set, so the lower bound holds for the deduplicated sizes, not
the raw lengths). -/
theorem C4_sumset_size_bounds (a b : List ℤ) (ha : a ≠ []) (hb : b ≠ []) :
    ((naive_sumset a b).size ≤ a.length * b.length ∧
      max a.toFinset.card b.toFinset.card ≤ (naive_sumset a b).size) ∧
    (bucket_sumset a b).size = (naive_sumset a b).size ∧
    (fft_sumset a b).size = (naive_sumset a b).size := by
  have hn : (naive_sumset a b).size = (sumsetSpec a b).card := by
    rw [naive_sumset_size, naive_sumset_set]
  refine ⟨⟨?_, ?_⟩, ?_, ?_⟩
  · rw [hn]
    exact sumsetSpec_card_le a b
  · rw [hn]
    exact max_le (toFinset_card_le_sumsetSpec_left a b hb)
      (toFinset_card_le_sumsetSpec_right a b ha)
  · rw [bucket_sumset_size, bucket_sumset_set, hn]
  · rw [fft_sumset_size, fft_sumset_set, hn]

/-- Witness for C4 (amended) at `A = [1, 1]`, `B = [2]`. -/
theorem C4_sumset_size_bounds_witness :
    (([(1 : ℤ), 1] ≠ []) ∧ ([(2 : ℤ)] ≠ [])) ∧
    (((naive_sumset [1, 1] [2]).size ≤
        List.length [(1 : ℤ), 1] * List.length [(2 : ℤ)] ∧
      max [(1 : ℤ), 1].toFinset.card [(2 : ℤ)].toFinset.card ≤
        (naive_sumset [1, 1] [2]).size) ∧
    (bucket_sumset [1, 1] [2]).size = (naive_sumset [1, 1] [2]).size ∧
    (fft_sumset [1, 1] [2]).size = (naive_sumset [1, 1] [2]).size) :=
  ⟨⟨by decide, by decide⟩,
    C4_sumset_size_bounds [1, 1] [2] (by decide) (by decide)⟩

/-- C5: on an empty `A` or empty `B`, all three algorithms return the
empty sumset, size 0 and operation count 0 (total functions: no error is
possible). -/
theorem C5_empty_inputs (a b : List ℤ) (h : a = [] ∨ b = []) :
    ((naive_sumset a b).sumset = ∅ ∧ (naive_sumset a b).size = 0 ∧
      (naive_sumset a b).operations = 0) ∧
    ((bucket_sumset a b).sumset = ∅ ∧ (bucket_sumset a b).size = 0 ∧
      (bucket_sumset a b).operations = 0) ∧
    ((fft_sumset a b).sumset = ∅ ∧ (fft_sumset a b).size = 0 ∧
      (fft_sumset a b).operations = 0) := by
  have hspec : sumsetSpec a b = ∅ := by
    rcases h with h | h <;> subst h <;> simp [sumsetSpec]
  have hlen : a.length * b.length = 0 := by
    rcases h with h | h <;> subst h <;> simp
  refine ⟨⟨?_, ?_, ?_⟩, ⟨?_, ?_, ?_⟩, ⟨?_, ?_, ?_⟩⟩
  · rw [naive_sumset_set, hspec]
  · rw [naive_sumset_size, naive_sumset_set, hspec]
    exact Finset.card_empty
  · rw [naive_sumset_ops, hlen]
  · rw [bucket_sumset_set, hspec]
  · rw [bucket_sumset_size, bucket_sumset_set, hspec]
    exact Finset.card_empty
  · rw [bucket_sumset, if_pos h]
  · rw [fft_sumset_set, hspec]
  · rw [fft_sumset_size, fft_sumset_set, hspec]
    exact Finset.card_empty
  · rw [fft_sumset, if_pos h]

/-- Witness for C5 at `A = []`, `B = [5]`. -/
theorem C5_empty_inputs_witness :
    (([] : List ℤ) = [] ∨ [(5 : ℤ)] = []) ∧
    (((naive_sumset [] [5]).sumset = ∅ ∧ (naive_sumset [] [5]).size = 0 ∧
      (naive_sumset [] [5]).operations = 0) ∧
    ((bucket_sumset [] [5]).sumset = ∅ ∧ (bucket_sumset [] [5]).size = 0 ∧
      (bucket_sumset [] [5]).operations = 0) ∧
    ((fft_sumset [] [5]).sumset = ∅ ∧ (fft_sumset [] [5]).size = 0 ∧
      (fft_sumset [] [5]).operations = 0)) :=
  ⟨Or.inl rfl, C5_empty_inputs [] [5] (Or.inl rfl)⟩

/-- C8: for nonempty `A`, `B`, the transform length `N` used by
`fft_sumset` is a power of two at least twice the minimum required
support `max(A) - min(A) + max(B) - min(B) + 1`, and the reported
operation count is exactly `3 · N · log2(N)`. -/
theorem C8_fft_padding_and_operation_count (a b : List ℤ)
    (ha : a ≠ []) (hb : b ≠ []) :
    (fftSupport a b : ℤ) =
      (listMax a - listMin a) + (listMax b - listMin b) + 1 ∧
    (∃ m, fftSize a b = 2 ^ m) ∧
    2 * fftSupport a b ≤ fftSize a b ∧
    (fft_sumset a b).operations =
      3 * fftSize a b * Nat.log2 (fftSize a b) := by
  refine ⟨?_, ?_, ?_, fft_sumset_ops a b ha hb⟩
  · rw [fftSupport]
    push_cast
    rw [listMaxN_shiftList a ha, listMaxN_shiftList b hb]
  · obtain ⟨m, hm⟩ := fftPow_pow2 (fftSupport a b)
    refine ⟨m + 1, ?_⟩
    rw [fftSize, hm, pow_succ]
    exact Nat.mul_comm 2 (2 ^ m)
  · have := fftPow_ge (fftSupport a b)
    rw [fftSize]
    omega

/-- Witness for C8 at `A = [0]`, `B = [0]` (support 1, transform length 2,
operation count 6). -/
theorem C8_fft_padding_witness :
    (([(0 : ℤ)] ≠ []) ∧ ([(0 : ℤ)] ≠ [])) ∧
    ((fftSupport [(0 : ℤ)] [(0 : ℤ)] : ℤ) =
      (listMax [(0 : ℤ)] - listMin [(0 : ℤ)]) +
        (listMax [(0 : ℤ)] - listMin [(0 : ℤ)]) + 1 ∧
    (∃ m, fftSize [(0 : ℤ)] [(0 : ℤ)] = 2 ^ m) ∧
    2 * fftSupport [(0 : ℤ)] [(0 : ℤ)] ≤ fftSize [(0 : ℤ)] [(0 : ℤ)] ∧
    (fft_sumset [(0 : ℤ)] [(0 : ℤ)]).operations =
      3 * fftSize [(0 : ℤ)] [(0 : ℤ)] *
        Nat.log2 (fftSize [(0 : ℤ)] [(0 : ℤ)])) :=
  ⟨⟨by decide, by decide⟩,
    C8_fft_padding_and_operation_count [0] [0] (by decide) (by decide)⟩

/-! ### `real_ram.py`: exact real arithmetic

`ExactReal` stores `_symbolic`, a sympy expression.  On the rational
fragment exercised by the spec's properties, sympy arithmetic on
`Rational` values auto-evaluates exactly; dividing by an exact zero does
not raise: sympy's `Rational(p, 0)` evaluates to `ComplexInfinity`
(`zoo`) for `p ≠ 0` and to `NaN` for `p = 0`.  The three reachable kinds
of symbolic value on this fragment are modelled by `SymVal`.  The
constructor `ExactReal(...)` also builds the `_numeric` cache via
`Decimal(str(float(value.evalf(100))))`: `float` of `zoo` raises a
`TypeError`, while rationals and `nan` convert without error (the cache
itself is display-only and carries no exactness, so it is not part of the
value). -/

inductive SymVal where
  | rat (q : ℚ)
  | zoo
  | nan
  deriving DecidableEq

/-- sympy addition on the modelled values: `Rational`s add exactly,
`nan` absorbs, `zoo + zoo = nan`, `zoo + rational = zoo`. -/
def SymVal.add : SymVal → SymVal → SymVal
  | .nan, _ => .nan
  | _, .nan => .nan
  | .zoo, .zoo => .nan
  | .zoo, .rat _ => .zoo
  | .rat _, .zoo => .zoo
  | .rat p, .rat q => .rat (p + q)

/-- sympy subtraction on the modelled values (same absorption rules). -/
def SymVal.sub : SymVal → SymVal → SymVal
  | .nan, _ => .nan
  | _, .nan => .nan
  | .zoo, .zoo => .nan
  | .zoo, .rat _ => .zoo
  | .rat _, .zoo => .zoo
  | .rat p, .rat q => .rat (p - q)

/-- sympy multiplication on the modelled values: `zoo * 0 = nan`,
`zoo` times a nonzero rational is `zoo`. -/
def SymVal.mul : SymVal → SymVal → SymVal
  | .nan, _ => .nan
  | _, .nan => .nan
  | .zoo, .zoo => .zoo
  | .zoo, .rat q => if q = 0 then .nan else .zoo
  | .rat p, .zoo => if p = 0 then .nan else .zoo
  | .rat p, .rat q => .rat (p * q)

/-- sympy division on the modelled values: the decisive cases are
`p / 0 = zoo` for `p ≠ 0` and `0 / 0 = nan` (no exception is raised by
the symbolic quotient). -/
def SymVal.div : SymVal → SymVal → SymVal
  | .nan, _ => .nan
  | _, .nan => .nan
  | .zoo, .zoo => .nan
  | .zoo, .rat _ => .zoo
  | .rat _, .zoo => .rat 0
  | .rat p, .rat q => if q = 0 then (if p = 0 then .nan else .zoo) else .rat (p / q)

/-- Python-level exceptions observable from the `real_ram` module on this
fragment.  No error type named `DivisionByZero` or
`IndeterminateComparison` exists anywhere in the module; the only failure
mode is a generic `TypeError` (from `float()` conversion of `zoo`, or
from sympy refusing `bool()` / rich comparison on `nan` and `zoo`).
`zeroDivisionError` is Python's built-in, listed to state that it is
never produced. -/
inductive PyError where
  | typeError
  | zeroDivisionError
  deriving DecidableEq

/-- `OperationCost` dataclass from `real_ram.py`. -/
structure OperationCost where
  additions : ℕ := 0
  multiplications : ℕ := 0
  divisions : ℕ := 0
  comparisons : ℕ := 0
  square_roots : ℕ := 0
  transcendental : ℕ := 0
  deriving DecidableEq

/-- An `ExactReal` value: its exact symbolic representation.  Values
holding `zoo` are unconstructible (the constructor raises), which the
smart constructor `ExactReal.ofSym` below enforces. -/
structure ExactReal where
  sym : SymVal
  deriving DecidableEq

/-- The `ExactReal.__init__` path taken by every arithmetic result
(`ExactReal(<sympy expression>)`): building the `_numeric` cache calls
`float` on the expression, which raises `TypeError` on `zoo` and succeeds
on rationals and `nan`. -/
def ExactReal.ofSym : SymVal → Except PyError ExactReal
  | .zoo => .error .typeError
  | s => .ok ⟨s⟩

/-- `ExactReal(n)` for a literal integer `n` (sympy `Integer`). -/
def ExactReal.ofInt (n : ℤ) : ExactReal := ⟨.rat n⟩

/-- `ExactReal(Fraction(p, q))` for an exact rational (sympy `Rational`). -/
def ExactReal.ofRat (q : ℚ) : ExactReal := ⟨.rat q⟩

/-- `ExactReal.__add__`: bump the additions counter, return
`ExactReal(self._symbolic + other._symbolic)`. -/
def ExactReal.add (x y : ExactReal) (c : OperationCost) :
    Except PyError ExactReal × OperationCost :=
  (ExactReal.ofSym (SymVal.add x.sym y.sym),
   { c with additions := c.additions + 1 })

/-- `ExactReal.__sub__`: the source bumps the *additions* counter. -/
def ExactReal.sub (x y : ExactReal) (c : OperationCost) :
    Except PyError ExactReal × OperationCost :=
  (ExactReal.ofSym (SymVal.sub x.sym y.sym),
   { c with additions := c.additions + 1 })

/-- `ExactReal.__mul__`: bump the multiplications counter. -/
def ExactReal.mul (x y : ExactReal) (c : OperationCost) :
    Except PyError ExactReal × OperationCost :=
  (ExactReal.ofSym (SymVal.mul x.sym y.sym),
   { c with multiplications := c.multiplications + 1 })

/-- `ExactReal.__truediv__`: bump the divisions counter (before the
quotient is formed), return `ExactReal(self._symbolic / other._symbolic)`
with no zero-divisor check of any kind. -/
def ExactReal.truediv (x y : ExactReal) (c : OperationCost) :
    Except PyError ExactReal × OperationCost :=
  (ExactReal.ofSym (SymVal.div x.sym y.sym),
   { c with divisions := c.divisions + 1 })

/-- `ExactReal.__lt__`: `bool(sp.simplify(self._symbolic -
other._symbolic) < 0)`.  On the modelled values `simplify` is the
identity (sympy returns `Rational`s and `nan` unchanged).  A rational
difference yields an honest sign test; sympy's rich comparison raises
`TypeError` when a side is `nan` ("Invalid NaN comparison") or non-real
(`zoo`). -/
def ExactReal.lt (x y : ExactReal) (c : OperationCost) :
    Except PyError Bool × OperationCost :=
  ((match SymVal.sub x.sym y.sym with
    | .rat q => .ok (decide (q < 0))
    | .zoo => .error .typeError
    | .nan => .error .typeError),
   { c with comparisons := c.comparisons + 1 })

/-- `ExactReal.__eq__`: `bool(sp.simplify(self._symbolic -
other._symbolic) == 0)`.  sympy `==` is structural and never raises: a
difference that does not reduce to the literal zero — including `nan`,
which has no sign at all — silently compares unequal. -/
def ExactReal.eq (x y : ExactReal) (c : OperationCost) :
    Except PyError Bool × OperationCost :=
  ((match SymVal.sub x.sym y.sym with
    | .rat q => .ok (decide (q = 0))
    | _ => .ok false),
   { c with comparisons := c.comparisons + 1 })

/-! ### Claim theorems: exact real arithmetic -/

/-- C2 (the code at the failing input): dividing by a divisor whose exact
value is identically zero is not detected.  `ExactReal(0) / ExactReal(0)`
returns the `NaN` value with no error of any kind, and
`ExactReal(1) / ExactReal(0)` surfaces only a generic `TypeError` from
the numeric-cache conversion of sympy's `ComplexInfinity` — there is no
`DivisionByZero` check by exact simplification anywhere on the path; the
divisions counter is bumped regardless. -/
theorem C2_divide_by_exact_zero_not_surfaced (c : OperationCost) :
    ExactReal.truediv (ExactReal.ofInt 0) (ExactReal.ofInt 0) c =
      (Except.ok ⟨SymVal.nan⟩, { c with divisions := c.divisions + 1 }) ∧
    ExactReal.truediv (ExactReal.ofInt 1) (ExactReal.ofInt 0) c =
      (Except.error PyError.typeError,
        { c with divisions := c.divisions + 1 }) := by
  constructor
  · simp [ExactReal.truediv, ExactReal.ofInt, SymVal.div, ExactReal.ofSym]
  · simp [ExactReal.truediv, ExactReal.ofInt, SymVal.div, ExactReal.ofSym]

/-- C3 (the code at the failing input): the `NaN` value reachable as
`ExactReal(0) / ExactReal(0)` has a symbolic self-difference (`nan`)
whose sign the exact engine cannot resolve, yet equality silently
returns `False` (structural sympy `==`), and ordering raises a generic
`TypeError`; no `IndeterminateComparison` condition is surfaced on
either path. -/
theorem C3_indeterminate_sign_not_surfaced (c : OperationCost) :
    (ExactReal.truediv (ExactReal.ofInt 0) (ExactReal.ofInt 0) c).1 =
      Except.ok ⟨SymVal.nan⟩ ∧
    ExactReal.eq ⟨SymVal.nan⟩ ⟨SymVal.nan⟩ c =
      (Except.ok false, { c with comparisons := c.comparisons + 1 }) ∧
    ExactReal.lt ⟨SymVal.nan⟩ ⟨SymVal.nan⟩ c =
      (Except.error PyError.typeError,
        { c with comparisons := c.comparisons + 1 }) := by
  refine ⟨?_, ?_, ?_⟩
  · simp [ExactReal.truediv, ExactReal.ofInt, SymVal.div, ExactReal.ofSym]
  · simp [ExactReal.eq, SymVal.sub]
  · simp [ExactReal.lt, SymVal.sub]

/-- C6: adding the exact rationals `p` and `q` yields exactly the value
of `p + q` — no floating error — and bumps the additions counter by
exactly 1, leaving every other counter unchanged. -/
theorem C6_exact_rational_addition (p q : ℚ) (c : OperationCost) :
    ExactReal.add (ExactReal.ofRat p) (ExactReal.ofRat q) c =
      (Except.ok (ExactReal.ofRat (p + q)),
        { c with additions := c.additions + 1 }) := rfl

/-- C7: `ExactReal(1) / ExactReal(3) * ExactReal(3)` is exactly
`ExactReal(1)`: the quotient is the exact rational `1/3` and the product
returns to exactly 1, with no round-off anywhere. -/
theorem C7_divide_multiply_round_trip (c c2 : OperationCost) :
    (ExactReal.truediv (ExactReal.ofInt 1) (ExactReal.ofInt 3) c).1 =
      Except.ok (ExactReal.ofRat (1 / 3)) ∧
    (ExactReal.mul (ExactReal.ofRat (1 / 3)) (ExactReal.ofInt 3) c2).1 =
      Except.ok (ExactReal.ofInt 1) := by
  constructor
  · simp [ExactReal.truediv, ExactReal.ofInt, ExactReal.ofRat, SymVal.div,
      ExactReal.ofSym]
  · simp [ExactReal.mul, ExactReal.ofInt, ExactReal.ofRat, SymVal.mul,
      ExactReal.ofSym]

/-! ### `word_ram.py`: bounded-integer model -/

/-- `WordRAMCost` dataclass from `word_ram.py`. -/
structure WordRAMCost where
  word_operations : ℕ := 0
  comparisons : ℕ := 0
  memory_accesses : ℕ := 0
  deriving DecidableEq

/-- `WordRAMInteger`: a plain (unbounded) Python integer together with a
declared word size that the arithmetic never consults. -/
structure WordRAMInteger where
  value : ℤ
  word_size : ℕ := 64
  deriving DecidableEq

/-- `WordRAMInteger.__add__`: track one word operation, return the exact
unbounded sum carrying the left operand's declared word size. -/
def WordRAMInteger.add (x y : WordRAMInteger) (c : WordRAMCost) :
    WordRAMInteger × WordRAMCost :=
  (⟨x.value + y.value, x.word_size⟩,
   { c with word_operations := c.word_operations + 1 })

/-- `WordRAMInteger.__mul__`: track one word operation, return the exact
unbounded product carrying the left operand's declared word size. -/
def WordRAMInteger.mul (x y : WordRAMInteger) (c : WordRAMCost) :
    WordRAMInteger × WordRAMCost :=
  (⟨x.value * y.value, x.word_size⟩,
   { c with word_operations := c.word_operations + 1 })

/-- C10: `WordRAMInteger` addition and multiplication always return the
exact unbounded mathematical sum and product (they are total — no
overflow failure exists) for every value and declared word size, and in
particular two values of `2^63` at word size 64 add to `2^64` and
multiply to `2^126`: nothing is wrapped at `± 2^(width - 1)`. -/
theorem C10_word_ram_is_unbounded (x y : WordRAMInteger) (c : WordRAMCost) :
    ((WordRAMInteger.add x y c).1.value = x.value + y.value ∧
      (WordRAMInteger.mul x y c).1.value = x.value * y.value ∧
      (WordRAMInteger.add x y c).1.word_size = x.word_size) ∧
    (WordRAMInteger.add ⟨2 ^ 63, 64⟩ ⟨2 ^ 63, 64⟩ c).1.value = 2 ^ 64 ∧
    (WordRAMInteger.mul ⟨2 ^ 63, 64⟩ ⟨2 ^ 63, 64⟩ c).1.value = 2 ^ 126 := by
  refine ⟨⟨rfl, rfl, rfl⟩, ?_, ?_⟩
  · show (2 : ℤ) ^ 63 + 2 ^ 63 = 2 ^ 64
    norm_num
  · show (2 : ℤ) ^ 63 * 2 ^ 63 = 2 ^ 126
    norm_num

/-! ### `geometric.py`: hill climbing -/

/-- `OptimizationResult` dataclass from `geometric.py` (final objective
value, final configuration, iteration/evaluation counts, converged
flag). -/
structure OptimizationResult (α : Type) where
  optimal_value : ℚ
  optimal_point : α
  iterations : ℕ
  function_evaluations : ℕ
  gradient_evaluations : ℕ
  converged : Bool

/-- One iteration of the `hill_climb` loop: propose a perturbed
candidate, evaluate its cost, count the evaluation, accept only on a
strict improvement. -/
def hillStep {α : Type} (cost : α → ℚ) (propose : ℕ → α → α)
    (st : α × ℚ × ℕ) (i : ℕ) : α × ℚ × ℕ :=
  let candidate := propose i st.1
  let c := cost candidate
  if c < st.2.1 then (candidate, c, st.2.2 + 1)
  else (st.1, st.2.1, st.2.2 + 1)

/-- `hill_climb` from `geometric.py`.  The floating-point numerics are
abstracted: `cost` stands for the centroid-distance objective and
`propose i` for the seeded uniform perturbation plus clip at step `i`;
the control flow — an initial evaluation, then exactly `steps` proposals
with strict-improvement acceptance and no early exit, ending in
`converged = True` — is the source's. -/
def hill_climb {α : Type} (cost : α → ℚ) (propose : ℕ → α → α)
    (points : α) (steps : ℕ) : OptimizationResult α :=
  let final := (List.range steps).foldl (hillStep cost propose)
    (points, cost points, 1)
  ⟨final.2.1, final.1, steps, final.2.2, 0, true⟩

lemma hillStep_evals {α : Type} (cost : α → ℚ) (propose : ℕ → α → α)
    (st : α × ℚ × ℕ) (i : ℕ) :
    (hillStep cost propose st i).2.2 = st.2.2 + 1 := by
  rw [hillStep]
  split <;> rfl

lemma hillFold_evals {α : Type} (cost : α → ℚ) (propose : ℕ → α → α)
    (l : List ℕ) (st : α × ℚ × ℕ) :
    (l.foldl (hillStep cost propose) st).2.2 = st.2.2 + l.length := by
  induction l generalizing st with
  | nil => simp
  | cons i l2 ih =>
      simp only [List.foldl_cons]
      rw [ih, hillStep_evals]
      simp [List.length_cons]
      omega

/-- C9: for every input, `hill_climb` performs exactly `steps` iterations
with no early exit, reports `steps + 1` function evaluations (the initial
evaluation included), and returns `converged = true` unconditionally. -/
theorem C9_hill_climb_fixed_budget {α : Type} (cost : α → ℚ)
    (propose : ℕ → α → α) (points : α) (steps : ℕ) :
    (hill_climb cost propose points steps).iterations = steps ∧
    (hill_climb cost propose points steps).function_evaluations =
      steps + 1 ∧
    (hill_climb cost propose points steps).converged = true := by
  refine ⟨rfl, ?_, rfl⟩
  show ((List.range steps).foldl (hillStep cost propose)
    (points, cost points, 1)).2.2 = steps + 1
  rw [hillFold_evals]
  simp [List.length_range]
  omega

end MLSuite
